import Mathlib

/-!
Shallow embedding of the MCTS planning core of `self_play.py`.

Numeric values (rewards, values, priors, scores) are modeled as rationals.
The transcendental floating-point functions used by the source
(`math.log`, `math.sqrt`, `math.exp`, float `**`) are abstracted as a
bundle of function parameters `MathOps`; theorems that depend on concrete
facts about them (e.g. `sqrt 0 = 0`, `exp x > 0`) take those facts as
hypotheses.  The neural network is an opaque collaborator and is modeled
by its inference interface only.  Python dictionaries keyed by actions are
modeled as association lists in insertion order, which is exactly the
iteration order Python guarantees.
-/

namespace MuZero

/-- Abstraction of the float math functions used by `self_play.py`. -/
structure MathOps where
  log : ℚ → ℚ
  sqrt : ℚ → ℚ
  exp : ℚ → ℚ
  pow : ℚ → ℚ → ℚ

/-- The configuration fields consumed by the MCTS core. -/
structure Config where
  action_space : List ℕ
  discount : ℚ
  pb_c_base : ℚ
  pb_c_init : ℚ
  num_simulations : ℕ
  root_dirichlet_alpha : ℚ
  root_exploration_fraction : ℚ
  max_moves : ℕ

/-- The model inference interface (`models.MuZeroNetwork`): both inference
calls return `(value, reward, policy_logits, hidden_state)`.  Policy logits
are indexed by action identifier. -/
structure Model (Obs H : Type) where
  initial_inference : Obs → ℚ × ℚ × (ℕ → ℚ) × H
  recurrent_inference : H → ℕ → ℚ × ℚ × (ℕ → ℚ) × H

/-- `Node` from `self_play.py`.  Fields in the order of `Node.__init__`:
`visit_count`, `to_play`, `prior`, `value_sum`, `children`, `hidden_state`,
`reward`.  `children` is the action-keyed dict, as an insertion-ordered
association list; `hidden_state` is `None` until `expand` runs. -/
inductive Node (H : Type) : Type where
  | mk (visit_count : ℕ) (to_play : ℤ) (prior : ℚ) (value_sum : ℚ)
       (children : List (ℕ × Node H)) (hidden_state : Option H)
       (reward : ℚ) : Node H

variable {H : Type} {Obs : Type}

def Node.visit_count : Node H → ℕ
  | .mk v _ _ _ _ _ _ => v

def Node.to_play : Node H → ℤ
  | .mk _ t _ _ _ _ _ => t

def Node.prior : Node H → ℚ
  | .mk _ _ p _ _ _ _ => p

def Node.value_sum : Node H → ℚ
  | .mk _ _ _ s _ _ _ => s

def Node.children : Node H → List (ℕ × Node H)
  | .mk _ _ _ _ c _ _ => c

def Node.hidden_state : Node H → Option H
  | .mk _ _ _ _ _ h _ => h

def Node.reward : Node H → ℚ
  | .mk _ _ _ _ _ _ r => r

/-- `Node.__init__(prior)`. -/
def Node.new (prior : ℚ) : Node H := .mk 0 (-1) prior 0 [] none 0

/-- `Node.expanded`: `len(self.children) > 0`. -/
def Node.expanded (n : Node H) : Bool := !n.children.isEmpty

/-- `Node.value`: `value_sum / visit_count`, or 0 when unvisited. -/
def Node.value (n : Node H) : ℚ :=
  if n.visit_count = 0 then 0 else n.value_sum / n.visit_count

/-- The fresh children created by one `Node.expand` call: softmax of the
policy logits over `actions` (`policy = {a: exp(logits[a]) for a in actions}`,
normalized by `policy_sum`). -/
def expandChildren (ops : MathOps) (actions : List ℕ)
    (policy_logits : ℕ → ℚ) : List (ℕ × Node H) :=
  let policy := actions.map fun a => (a, ops.exp (policy_logits a))
  let policy_sum := (policy.map (·.2)).sum
  policy.map fun p => (p.1, Node.new (p.2 / policy_sum))

/-- `Node.expand(actions, reward, policy_logits, hidden_state)`.  The dict
writes `self.children[action] = Node(p / policy_sum)` insert the fresh
children in action order; every call site expands a node whose dict is
empty, so appending is the dict-update behavior. -/
def Node.expand (ops : MathOps) (n : Node H) (actions : List ℕ) (reward : ℚ)
    (policy_logits : ℕ → ℚ) (hidden_state : H) : Node H :=
  .mk n.visit_count n.to_play n.prior n.value_sum
    (n.children ++ expandChildren ops actions policy_logits)
    (some hidden_state) reward

/-- `Node.add_exploration_noise`: mix each root prior with one Dirichlet
noise coordinate; `zip` truncates like Python's. -/
def Node.add_exploration_noise (n : Node H) (noise : List ℚ)
    (exploration_fraction : ℚ) : Node H :=
  let frac := exploration_fraction
  let mixed := (n.children.zip noise).map fun pn =>
    (pn.1.1, match pn.1.2 with
      | .mk v t p s c h r => Node.mk v t (p * (1 - frac) + pn.2 * frac) s c h r)
  .mk n.visit_count n.to_play n.prior n.value_sum
    (mixed ++ n.children.drop noise.length) n.hidden_state n.reward

/-- `MinMaxStats`: `maximum` starts at `-inf`, `minimum` at `+inf`; the
infinities are modeled by `none`. -/
structure MinMaxStats where
  maximum : Option ℚ
  minimum : Option ℚ

def MinMaxStats.new : MinMaxStats := ⟨none, none⟩

/-- `update(value)`: `maximum = max(maximum, value)`, `minimum = min(minimum, value)`. -/
def MinMaxStats.update (s : MinMaxStats) (v : ℚ) : MinMaxStats :=
  ⟨some (match s.maximum with | none => v | some m => max m v),
   some (match s.minimum with | none => v | some m => min m v)⟩

/-- `normalize(value)`: `(value - minimum) / (maximum - minimum)` when
`maximum > minimum`, else `value` unchanged.  With `maximum = -inf` or
`minimum = +inf` the comparison `maximum > minimum` is false. -/
def MinMaxStats.normalize (s : MinMaxStats) (v : ℚ) : ℚ :=
  match s.maximum, s.minimum with
  | some mx, some mn => if mn < mx then (v - mn) / (mx - mn) else v
  | _, _ => v

/-- `MCTS.ucb_score(parent, child, min_max_stats)`. -/
def ucb_score (cfg : Config) (ops : MathOps) (parent child : Node H)
    (mm : MinMaxStats) : ℚ :=
  let pb_c := ops.log (((parent.visit_count : ℚ) + cfg.pb_c_base + 1) / cfg.pb_c_base)
      + cfg.pb_c_init
  let pb_c := pb_c * (ops.sqrt (parent.visit_count : ℚ) / ((child.visit_count : ℚ) + 1))
  let prior_score := pb_c * child.prior
  let value_score := mm.normalize child.value
  prior_score + value_score

/-- `MCTS.select_child`: `max((ucb_score(...), action, child) for ...)` —
a lexicographic maximum over `(score, action)` (the third tuple component
is never compared because actions are distinct dict keys); Python's `max`
keeps the earlier element unless a later one is strictly greater.
`None` models the `ValueError` of `max` on an empty dict. -/
def select_child (cfg : Config) (ops : MathOps) (node : Node H)
    (mm : MinMaxStats) : Option (ℕ × Node H) :=
  match node.children with
  | [] => none
  | c :: cs => some (cs.foldl (fun best q =>
      let sb := ucb_score cfg ops node best.2 mm
      let sq := ucb_score cfg ops node q.2 mm
      if sb < sq ∨ (sb = sq ∧ best.1 < q.1) then q else best) c)

/-- `MCTS.backpropagate(search_path, value, min_max_stats)`.  The source
iterates `for node in search_path:` — in LIST ORDER, which is root first
(the path is built root-to-leaf in `run`).  Each step adds the carried
value to `value_sum`, increments `visit_count`, updates the tracker with
the node's new `value()`, then rewrites the carried value as
`node.reward + discount * value`. -/
def backpropagate (cfg : Config) :
    List (Node H) → ℚ → MinMaxStats → List (Node H) × MinMaxStats
  | [], _, mm => ([], mm)
  | n :: rest, value, mm =>
    let n' : Node H := .mk (n.visit_count + 1) n.to_play n.prior
      (n.value_sum + value) n.children n.hidden_state n.reward
    let mm' := mm.update n'.value
    let value' := n.reward + cfg.discount * value
    let (rest', mm'') := backpropagate cfg rest value' mm'
    (n' :: rest', mm'')

/-- The backpropagation walk as the spec words it: from the LEAF back to
the root, rewriting the carried value as `node.reward + discount * value`
before moving to each node's parent.  Stated by running the same per-node
update over the reversed path. -/
def backpropagateLeafToRoot (cfg : Config) (path : List (Node H)) (value : ℚ)
    (mm : MinMaxStats) : List (Node H) × MinMaxStats :=
  let r := backpropagate cfg path.reverse value mm
  (r.1.reverse, r.2)

/-- A fold that at each step keeps either the accumulator or the new
element stays inside the initial choices. -/
theorem foldl_choice_mem {α : Type _} (f : α → α → α)
    (hf : ∀ a b, f a b = a ∨ f a b = b) :
    ∀ (cs : List α) (c : α), cs.foldl f c ∈ c :: cs := by
  intro cs
  induction cs with
  | nil => intro c; simp
  | cons q qs ih =>
    intro c
    simp only [List.foldl_cons]
    rcases hf c q with h2 | h2 <;> rw [h2]
    · have hm := ih c
      simp only [List.mem_cons] at hm ⊢
      tauto
    · have hm := ih q
      simp only [List.mem_cons] at hm ⊢
      tauto

/-- `select_child` returns one of the parent's children. -/
theorem select_child_mem {cfg : Config} {ops : MathOps} {node : Node H}
    {mm : MinMaxStats} {ac : ℕ × Node H}
    (h : select_child cfg ops node mm = some ac) : ac ∈ node.children := by
  unfold select_child at h
  cases hc : node.children with
  | nil => rw [hc] at h; simp at h
  | cons c cs =>
    rw [hc] at h
    simp only [Option.some.injEq] at h
    have := foldl_choice_mem
      (fun best q =>
        let sb := ucb_score cfg ops node best.2 mm
        let sq := ucb_score cfg ops node q.2 mm
        if sb < sq ∨ (sb = sq ∧ best.1 < q.1) then q else best)
      (by
        intro a b
        by_cases hcond : ucb_score cfg ops node a.2 mm < ucb_score cfg ops node b.2 mm ∨
            (ucb_score cfg ops node a.2 mm = ucb_score cfg ops node b.2 mm ∧ a.1 < b.1)
        · right; simp [hcond]
        · left; simp [hcond]) cs c
    rw [h] at this
    exact this

/-- The selected child is structurally smaller than its parent. -/
theorem select_child_sizeOf {cfg : Config} {ops : MathOps} {node : Node H}
    {mm : MinMaxStats} {ac : ℕ × Node H}
    (h : select_child cfg ops node mm = some ac) : sizeOf ac.2 < sizeOf node := by
  have hmem := select_child_mem h
  have h1 : sizeOf ac < sizeOf node.children := List.sizeOf_lt_of_mem hmem
  have h2 : sizeOf ac.2 < sizeOf ac := by
    cases ac; simp
  cases node with
  | mk v t p s c hs r =>
    simp only [Node.children] at h1
    simp only [Node.mk.sizeOf_spec]
    omega

/-- The selection walk of `MCTS.run`: starting at a node, while it is
expanded, select a child by UCB score and record the action; the
resulting action list leads from the node to the leaf that the walk ends
at.  `min_max_stats` is not modified during the walk (only by
`backpropagate`), so it is a constant here, matching the source. -/
def descend (cfg : Config) (ops : MathOps) (mm : MinMaxStats) (node : Node H) :
    List ℕ :=
  match _h : select_child cfg ops node mm with
  | none => []
  | some ac => ac.1 :: descend cfg ops mm ac.2
termination_by sizeOf node
decreasing_by exact select_child_sizeOf _h

/-- Dictionary lookup `node.children[a]`. -/
def lookupChild (n : Node H) (a : ℕ) : Option (Node H) :=
  (n.children.find? fun p => p.1 == a).map (·.2)

/-- Follow an action path down the tree. -/
def getAt : Node H → List ℕ → Option (Node H)
  | n, [] => some n
  | n, a :: rest => (lookupChild n a).bind fun c => getAt c rest

/-- Replace the node at the end of an action path (rebuilding the
ancestors, which in Python happens implicitly by mutating the aliased
child object). -/
def updateAt : Node H → List ℕ → (Node H → Node H) → Node H
  | n, [], f => f n
  | n, a :: rest, f =>
    match n with
    | .mk v t p s c hs r =>
      .mk v t p s (c.map fun q => if q.1 = a then (q.1, updateAt q.2 rest f) else q) hs r

/-- The `search_path` list of node objects along an action path (root
included), when every step exists. -/
def pathNodes : Node H → List ℕ → Option (List (Node H))
  | n, [] => some [n]
  | n, a :: rest => (lookupChild n a).bind fun c => (pathNodes c rest).map (n :: ·)

/-- Copy the statistics (`visit_count`, `value_sum`) that `backpropagate`
mutates from `m` onto `n`, keeping `n`'s structure. -/
def setStats (m n : Node H) : Node H :=
  .mk m.visit_count n.to_play n.prior m.value_sum n.children n.hidden_state n.reward

/-- Write the per-node statistics produced by `backpropagate` back onto
the tree along the search path (in Python the list nodes alias the tree
nodes, so the mutation is shared; here it is made explicit). -/
def writeBack : Node H → List ℕ → List (Node H) → Node H
  | t, _, [] => t
  | t, [], m :: _ => setStats m t
  | t, a :: rest, m :: ms =>
    match setStats m t with
    | .mk v tp p s c hs r =>
      .mk v tp p s (c.map fun q => if q.1 = a then (q.1, writeBack q.2 rest ms) else q) hs r

/-- One iteration of the simulation loop in `MCTS.run`: select down to a
leaf, run recurrent inference on the leaf's parent hidden state and the
last action, expand the leaf, and backpropagate the inferred value along
the search path.  `none` models the crashes of the source on degenerate
trees (`last_action` unbound / `search_path[-2]` out of range when the
root is unexpanded; recurrent inference on a `None` hidden state). -/
def simulate (cfg : Config) (ops : MathOps) (model : Model Obs H)
    (st : Node H × MinMaxStats) : Option (Node H × MinMaxStats) :=
  let root := st.1
  let mm := st.2
  let path := descend cfg ops mm root
  path.getLast?.bind fun last_action =>
    (getAt root path.dropLast).bind fun parent =>
      parent.hidden_state.bind fun hs =>
        let r := model.recurrent_inference hs last_action
        let value := r.1
        let reward := r.2.1
        let policy_logits := r.2.2.1
        let hidden := r.2.2.2
        let root1 := updateAt root path fun leaf =>
          leaf.expand ops cfg.action_space reward policy_logits hidden
        (pathNodes root1 path).map fun sp =>
          let bp := backpropagate cfg sp value mm
          (writeBack root1 path bp.1, bp.2)

/-- The simulation loop of `MCTS.run`, iterated `num_simulations` times. -/
def runSims (cfg : Config) (ops : MathOps) (model : Model Obs H) :
    ℕ → Node H × MinMaxStats → Option (Node H × MinMaxStats)
  | 0, st => some st
  | n + 1, st => (simulate cfg ops model st).bind (runSims cfg ops model n)

/-- `MCTS.run(model, observation, add_exploration_noise)`.  The Dirichlet
sample used by `add_exploration_noise` is an oracle argument `noise`. -/
def MCTS.run (cfg : Config) (ops : MathOps) (model : Model Obs H)
    (noise : List ℚ) (observation : Obs) (add_exploration_noise : Bool) :
    Option (Node H) :=
  let root : Node H := Node.new 0
  let r := model.initial_inference observation
  let expected_reward := r.2.1
  let policy_logits := r.2.2.1
  let hidden_state := r.2.2.2
  let root := root.expand ops cfg.action_space expected_reward policy_logits hidden_state
  let root := if add_exploration_noise then
      root.add_exploration_noise noise cfg.root_exploration_fraction
    else root
  (runSims cfg ops model cfg.num_simulations (root, MinMaxStats.new)).map (·.1)

/-- A float temperature that may be `inf`. -/
inductive Temp : Type where
  | finite (t : ℚ) : Temp
  | inf : Temp
deriving DecidableEq

/-- `numpy.argmax`: index of the first occurrence of the maximum.
`argmaxFrom xs best bidx i` scans `xs` starting at index `i` with current
maximum `best` found at index `bidx`. -/
def argmaxFrom : List ℕ → ℕ → ℕ → ℕ → ℕ
  | [], _, bidx, _ => bidx
  | x :: xs, best, bidx, i =>
    if best < x then argmaxFrom xs x i (i + 1) else argmaxFrom xs best bidx (i + 1)

def argmax : List ℕ → ℕ
  | [] => 0
  | x :: xs => argmaxFrom xs x 0 1

/-- `select_action(node, temperature)`.  The two rows of the transposed
numpy array are the children's visit counts and actions, in dict
(insertion) order.  `sampler` is the oracle standing for
`numpy.random.choice(n, p=distribution)` — it is handed the distribution
and yields a position — and `unif` the oracle for the uniform
`numpy.random.choice(n)` used when the temperature is infinite.  `none`
models the source's exceptions: indexing row 0 of the transposed empty
array when the root has no children, `numpy.random.choice` rejecting a
probability vector that does not sum to 1 (the `0/0` entries when every
visit count is 0), and an out-of-range position. -/
def select_action (ops : MathOps) (node : Node H) (temperature : Temp)
    (sampler : List ℚ → ℕ) (unif : ℕ → ℕ) : Option ℕ :=
  match node.children with
  | [] => none
  | _ :: _ =>
    let visit_counts : List ℕ := node.children.map (·.2.visit_count)
    let actions : List ℕ := node.children.map (·.1)
    if temperature = .finite 0 then
      actions[argmax visit_counts]?
    else
      let invT : ℚ := match temperature with | .inf => 0 | .finite t => 1 / t
      let dist0 := visit_counts.map fun (c : ℕ) => ops.pow (c : ℚ) invT
      let s := dist0.sum
      let dist := dist0.map (· / s)
      if dist.sum = 1 then
        let pos := sampler dist
        let pos := if temperature = .inf then unif actions.length else pos
        actions[pos]?
      else none

/-- `GameHistory.__init__(discount)`. -/
structure GameHistory (Obs : Type) where
  observation_history : List Obs
  history : List ℕ
  rewards : List ℚ
  child_visits : List (List ℚ)
  root_values : List ℚ
  discount : ℚ

def GameHistory.new (discount : ℚ) : GameHistory Obs :=
  ⟨[], [], [], [], [], discount⟩

/-- `GameHistory.store_search_statistics(root, action_space)`. -/
def store_search_statistics (g : GameHistory Obs) (root : Node H)
    (action_space : List ℕ) : GameHistory Obs :=
  let sum_visits : ℚ := ((root.children.map (·.2.visit_count)).sum : ℕ)
  { g with
    child_visits := g.child_visits ++ [action_space.map fun a =>
      match lookupChild root a with
      | some c => (c.visit_count : ℚ) / sum_visits
      | none => 0],
    root_values := g.root_values ++ [root.value] }

/-- The environment interface (`game.reset` / `game.step`), with explicit
state threading. -/
structure Game (Obs S : Type) where
  reset : Obs × S
  step : S → ℕ → Obs × ℚ × Bool × S

/-- The loop state of `SelfPlay.play_game`: the history being built, the
current observation, the environment state, the `done` flag, and the move
index used to address the per-move randomness oracles. -/
structure PlayState (Obs S : Type) where
  gh : GameHistory Obs
  observation : Obs
  game_state : S
  done : Bool
  move : ℕ

/-- The state before the episode loop: fresh history, initial observation
from `game.reset()` appended to `observation_history`. -/
def initPlayState (cfg : Config) (game : Game Obs S) : PlayState Obs S :=
  { gh := { (GameHistory.new cfg.discount : GameHistory Obs) with
              observation_history := [game.reset.1] }
    observation := game.reset.1
    game_state := game.reset.2
    done := false
    move := 0 }

/-- One iteration of the episode loop of `SelfPlay.play_game`: run MCTS
with exploration noise, select an action, step the environment, append
observation / reward / action, store the search statistics. -/
def play_step (cfg : Config) (ops : MathOps) (model : Model Obs H)
    (game : Game Obs S) (noise : ℕ → List ℚ) (sampler : ℕ → List ℚ → ℕ)
    (unif : ℕ → ℕ → ℕ) (temperature : Temp) (st : PlayState Obs S) :
    Option (PlayState Obs S) :=
  (MCTS.run cfg ops model (noise st.move) st.observation true).bind fun root =>
    (select_action ops root temperature (sampler st.move) (unif st.move)).bind
      fun action =>
        let r := game.step st.game_state action
        let observation := r.1
        let reward := r.2.1
        let done := r.2.2.1
        let gh := { st.gh with
          observation_history := st.gh.observation_history ++ [observation]
          rewards := st.gh.rewards ++ [reward]
          history := st.gh.history ++ [action] }
        let gh := store_search_statistics gh root cfg.action_space
        some { gh := gh, observation := observation, game_state := r.2.2.2,
               done := done, move := st.move + 1 }

/-- The episode loop `while not done and len(history) < max_moves`,
with fuel (the loop makes at most `max_moves` iterations because every
iteration appends one action to `history`). -/
def play_loop (cfg : Config) (ops : MathOps) (model : Model Obs H)
    (game : Game Obs S) (noise : ℕ → List ℚ) (sampler : ℕ → List ℚ → ℕ)
    (unif : ℕ → ℕ → ℕ) (temperature : Temp) :
    ℕ → PlayState Obs S → Option (PlayState Obs S)
  | 0, st => some st
  | fuel + 1, st =>
    if st.done = false ∧ st.gh.history.length < cfg.max_moves then
      (play_step cfg ops model game noise sampler unif temperature st).bind
        (play_loop cfg ops model game noise sampler unif temperature fuel)
    else some st

/-- `SelfPlay.play_game(temperature, render)` (rendering is pure I/O and
has no effect on the returned history). -/
def play_game (cfg : Config) (ops : MathOps) (model : Model Obs H)
    (game : Game Obs S) (noise : ℕ → List ℚ) (sampler : ℕ → List ℚ → ℕ)
    (unif : ℕ → ℕ → ℕ) (temperature : Temp) : Option (GameHistory Obs) :=
  (play_loop cfg ops model game noise sampler unif temperature cfg.max_moves
    (initPlayState cfg game)).map (·.gh)

theorem list_sum_div (l : List ℚ) (c : ℚ) : (l.map (· / c)).sum = l.sum / c := by
  induction l with
  | nil => simp
  | cons x xs ih => simp [add_div, ih]

/-- C8: `MinMaxStats.normalize(v)` returns `v` unchanged before any `update`
call (and whenever `maximum ≤ minimum`); once `maximum > minimum` it returns
`(v - minimum) / (maximum - minimum)`, which lies in `[0, 1]` for every `v`
with `minimum ≤ v ≤ maximum`. -/
theorem c8_normalize_spec (s : MinMaxStats) (v mx mn : ℚ)
    (hmax : s.maximum = some mx) (hmin : s.minimum = some mn) :
    (∀ w : ℚ, MinMaxStats.new.normalize w = w) ∧
    (¬ mn < mx → s.normalize v = v) ∧
    (mn < mx → s.normalize v = (v - mn) / (mx - mn)) ∧
    (mn < mx → mn ≤ v → v ≤ mx → 0 ≤ s.normalize v ∧ s.normalize v ≤ 1) := by
  have hnorm : s.normalize v = if mn < mx then (v - mn) / (mx - mn) else v := by
    simp [MinMaxStats.normalize, hmax, hmin]
  refine ⟨fun w => rfl, ?_, ?_, ?_⟩
  · intro h; rw [hnorm, if_neg h]
  · intro h; rw [hnorm, if_pos h]
  · intro hlt hle hge
    rw [hnorm, if_pos hlt]
    have hpos : 0 < mx - mn := sub_pos.mpr hlt
    constructor
    · exact div_nonneg (sub_nonneg.mpr hle) hpos.le
    · rw [div_le_one hpos]
      exact sub_le_sub_right hge mn

theorem c8_normalize_spec_witness :
    (∀ w : ℚ, MinMaxStats.new.normalize w = w) ∧
    (¬ (0 : ℚ) < 2 → (MinMaxStats.mk (some 2) (some 0)).normalize 1 = 1) ∧
    ((0 : ℚ) < 2 → (MinMaxStats.mk (some 2) (some 0)).normalize 1 = (1 - 0) / (2 - 0)) ∧
    ((0 : ℚ) < 2 → (0 : ℚ) ≤ 1 → (1 : ℚ) ≤ 2 →
      0 ≤ (MinMaxStats.mk (some 2) (some 0)).normalize 1 ∧
      (MinMaxStats.mk (some 2) (some 0)).normalize 1 ≤ 1) :=
  c8_normalize_spec (MinMaxStats.mk (some 2) (some 0)) 1 2 0 rfl rfl

/-- C5: every `Node.expand` call with a non-empty action set gives each new
child the prior `exp(logit) / Σ exp(logit)` — a softmax over the given
actions — so each prior lies in `[0, 1]` and the new children's priors sum
to 1.  Positivity of the modeled `math.exp` is the hypothesis `hexp`. -/
theorem c5_expand_softmax (ops : MathOps) (n : Node H) (actions : List ℕ)
    (reward : ℚ) (logits : ℕ → ℚ) (hs : H)
    (hexp : ∀ x, 0 < ops.exp x) (hne : actions ≠ []) :
    (n.expand ops actions reward logits hs).children
        = n.children ++ expandChildren ops actions logits ∧
    (∀ p ∈ (expandChildren ops actions logits : List (ℕ × Node H)),
        p.2.prior = ops.exp (logits p.1) / ((actions.map fun a => ops.exp (logits a)).sum)) ∧
    ((expandChildren ops actions logits : List (ℕ × Node H)).map (·.2.prior)).sum = 1 ∧
    (∀ p ∈ (expandChildren ops actions logits : List (ℕ × Node H)),
        0 ≤ p.2.prior ∧ p.2.prior ≤ 1) := by
  set S : ℚ := (actions.map fun a => ops.exp (logits a)).sum with hS
  have hmem_pos : ∀ x ∈ actions.map fun a => ops.exp (logits a), 0 < x := by
    intro x hx
    obtain ⟨a, _, rfl⟩ := List.mem_map.mp hx
    exact hexp _
  have hSpos : 0 < S := by
    refine List.sum_pos _ hmem_pos ?_
    simpa using hne
  have hchild : (expandChildren ops actions logits : List (ℕ × Node H))
      = actions.map fun a => (a, Node.new (ops.exp (logits a) / S)) := by
    simp only [expandChildren, List.map_map]
    congr 1
  have hpriors : ((expandChildren ops actions logits : List (ℕ × Node H)).map (·.2.prior))
      = (actions.map fun a => ops.exp (logits a)).map (· / S) := by
    rw [hchild]
    simp [List.map_map, Function.comp_def, Node.new, Node.prior]
  refine ⟨by simp [Node.expand, Node.children], ?_, ?_, ?_⟩
  · intro p hp
    rw [hchild] at hp
    obtain ⟨a, _, rfl⟩ := List.mem_map.mp hp
    simp [Node.new, Node.prior]
  · rw [hpriors, list_sum_div, div_self hSpos.ne']
  · intro p hp
    rw [hchild] at hp
    obtain ⟨a, ha, rfl⟩ := List.mem_map.mp hp
    simp only [Node.new, Node.prior]
    constructor
    · exact div_nonneg (hexp _).le hSpos.le
    · rw [div_le_one hSpos]
      exact List.single_le_sum (fun x hx => (hmem_pos x hx).le) _
        (List.mem_map_of_mem _ ha)

theorem c5_expand_softmax_witness :
    ((Node.new 0 : Node Unit).expand ⟨id, id, fun _ => 1, fun _ _ => 0⟩ [0, 1] 0 (fun _ => 0) ()).children
        = (Node.new 0 : Node Unit).children
          ++ expandChildren ⟨id, id, fun _ => 1, fun _ _ => 0⟩ [0, 1] (fun _ => 0) ∧
    (∀ p ∈ (expandChildren ⟨id, id, fun _ => 1, fun _ _ => 0⟩ [0, 1] (fun _ => 0) : List (ℕ × Node Unit)),
        p.2.prior = MathOps.exp ⟨id, id, fun _ => 1, fun _ _ => 0⟩ ((fun _ => (0 : ℚ)) p.1)
          / (([0, 1].map fun a => MathOps.exp ⟨id, id, fun _ => 1, fun _ _ => 0⟩ ((fun _ => (0 : ℚ)) a)).sum)) ∧
    ((expandChildren ⟨id, id, fun _ => 1, fun _ _ => 0⟩ [0, 1] (fun _ => 0) : List (ℕ × Node Unit)).map (·.2.prior)).sum = 1 ∧
    (∀ p ∈ (expandChildren ⟨id, id, fun _ => 1, fun _ _ => 0⟩ [0, 1] (fun _ => 0) : List (ℕ × Node Unit)),
        0 ≤ p.2.prior ∧ p.2.prior ≤ 1) :=
  c5_expand_softmax ⟨id, id, fun _ => 1, fun _ _ => 0⟩ (Node.new 0) [0, 1] 0 (fun _ => 0) ()
    (fun _ => one_pos) (by simp)

/-- The concrete two-node search path used to exhibit the direction of the
backpropagation walk: a root with reward 0 and a leaf with reward 1. -/
def bpRoot : Node Unit := Node.mk 0 (-1) 0 0 [] none 0

def bpLeaf : Node Unit := Node.mk 0 (-1) 0 0 [] none 1

def bpCfg : Config := ⟨[0], 1/2, 1, 1, 0, 0, 0, 0⟩

/-- C1: the claim says the backed-up value walks from LEAF to ROOT, the
carried value being rewritten as `reward + discount * value` before each
move to a parent.  The source iterates `for node in search_path:`, i.e.
from the ROOT down to the leaf.  On the path `[root (reward 0), leaf
(reward 1)]` with value 1 and discount 1/2, the code leaves
`value_sum = [1, 1/2]` while the claimed leaf-to-root walk leaves
`[3/2, 1]`; each node's `visit_count` is incremented and the tracker is
updated either way. -/
theorem c1_backprop_direction :
    ((backpropagate bpCfg [bpRoot, bpLeaf] 1 MinMaxStats.new).1.map Node.value_sum
        = [1, 1/2] ∧
     (backpropagate bpCfg [bpRoot, bpLeaf] 1 MinMaxStats.new).1.map Node.visit_count
        = [1, 1]) ∧
    ((backpropagateLeafToRoot bpCfg [bpRoot, bpLeaf] 1 MinMaxStats.new).1.map Node.value_sum
        = [3/2, 1]) ∧
    (backpropagate bpCfg [bpRoot, bpLeaf] 1 MinMaxStats.new).1
      ≠ (backpropagateLeafToRoot bpCfg [bpRoot, bpLeaf] 1 MinMaxStats.new).1 := by
  norm_num [backpropagate, backpropagateLeafToRoot, bpRoot, bpLeaf, bpCfg,
    MinMaxStats.new, MinMaxStats.update, Node.value, Node.value_sum, Node.visit_count,
    Node.to_play, Node.prior, Node.children, Node.hidden_state, Node.reward]

/-- Scan spec of `argmaxFrom`: either no element beats `best` and the
incoming index is kept, or the result points (relative to the scan offset
`i`) at the first occurrence of the maximum, which strictly beats `best`. -/
theorem argmaxFrom_spec (xs : List ℕ) : ∀ best bidx i : ℕ,
    (argmaxFrom xs best bidx i = bidx ∧ ∀ k < xs.length, xs.getD k 0 ≤ best)
    ∨ (∃ k < xs.length, argmaxFrom xs best bidx i = i + k ∧ best < xs.getD k 0
        ∧ (∀ m < xs.length, xs.getD m 0 ≤ xs.getD k 0)
        ∧ (∀ m < k, xs.getD m 0 < xs.getD k 0)) := by
  induction xs with
  | nil =>
    intro best bidx i
    left
    exact ⟨rfl, by intro k hk; simp at hk⟩
  | cons x xs ih =>
    intro best bidx i
    by_cases hlt : best < x
    · rcases ih x i (i + 1) with ⟨hres, hmax⟩ | ⟨k, hk, hres, hgt, hmax, hfirst⟩
      · right
        refine ⟨0, by simp, ?_, ?_, ?_, ?_⟩
        · simp [argmaxFrom, hlt, hres]
        · simpa using hlt
        · intro m hm
          match m with
          | 0 => simp
          | m + 1 =>
            simp only [List.getD_cons_succ, List.getD_cons_zero]
            exact hmax m (by simpa using hm)
        · intro m hm; omega
      · right
        refine ⟨k + 1, by simpa using hk, ?_, ?_, ?_, ?_⟩
        · simp only [argmaxFrom, if_pos hlt, hres]; omega
        · simp only [List.getD_cons_succ]
          exact hlt.trans hgt
        · intro m hm
          match m with
          | 0 => simp only [List.getD_cons_zero, List.getD_cons_succ]; exact hgt.le
          | m + 1 =>
            simp only [List.getD_cons_succ]
            exact hmax m (by simpa using hm)
        · intro m hm
          match m with
          | 0 => simp only [List.getD_cons_zero, List.getD_cons_succ]; exact hgt
          | m + 1 =>
            simp only [List.getD_cons_succ]
            exact hfirst m (by omega)
    · rcases ih best bidx (i + 1) with ⟨hres, hmax⟩ | ⟨k, hk, hres, hgt, hmax, hfirst⟩
      · left
        refine ⟨by simp [argmaxFrom, hlt, hres], ?_⟩
        intro k hk
        match k with
        | 0 => simpa using Nat.le_of_not_lt hlt
        | k + 1 =>
          simp only [List.getD_cons_succ]
          exact hmax k (by simpa using hk)
      · right
        refine ⟨k + 1, by simpa using hk, ?_, ?_, ?_, ?_⟩
        · simp only [argmaxFrom, if_neg hlt, hres]; omega
        · simp only [List.getD_cons_succ]
          exact hgt
        · intro m hm
          match m with
          | 0 =>
            simp only [List.getD_cons_zero, List.getD_cons_succ]
            exact (Nat.le_of_not_lt hlt).trans hgt.le
          | m + 1 =>
            simp only [List.getD_cons_succ]
            exact hmax m (by simpa using hm)
        · intro m hm
          match m with
          | 0 =>
            simp only [List.getD_cons_zero, List.getD_cons_succ]
            exact lt_of_le_of_lt (Nat.le_of_not_lt hlt) hgt
          | m + 1 =>
            simp only [List.getD_cons_succ]
            exact hfirst m (by omega)

/-- `argmax` of a non-empty list: an in-range index of the maximum whose
earlier entries are all strictly smaller (the numpy first-occurrence rule). -/
theorem argmax_spec (x : ℕ) (xs : List ℕ) :
    argmax (x :: xs) < (x :: xs).length ∧
    (∀ j < (x :: xs).length, (x :: xs).getD j 0 ≤ (x :: xs).getD (argmax (x :: xs)) 0) ∧
    (∀ j < argmax (x :: xs), (x :: xs).getD j 0 < (x :: xs).getD (argmax (x :: xs)) 0) := by
  have hdef : argmax (x :: xs) = argmaxFrom xs x 0 1 := rfl
  rcases argmaxFrom_spec xs x 0 1 with ⟨hres, hmax⟩ | ⟨k, hk, hres, hgt, hmax, hfirst⟩
  · rw [hdef, hres]
    refine ⟨by simp, ?_, by intro j hj; omega⟩
    intro j hj
    match j with
    | 0 => simp
    | j + 1 =>
      simp only [List.getD_cons_succ, List.getD_cons_zero]
      exact hmax j (by simpa using hj)
  · have hres1 : argmax (x :: xs) = k + 1 := by rw [hdef, hres]; omega
    rw [hres1]
    refine ⟨by simpa using hk, ?_, ?_⟩
    · intro j hj
      match j with
      | 0 =>
        simp only [List.getD_cons_zero, List.getD_cons_succ]
        exact hgt.le
      | j + 1 =>
        simp only [List.getD_cons_succ]
        exact hmax j (by simpa using hj)
    · intro j hj
      match j with
      | 0 =>
        simp only [List.getD_cons_zero, List.getD_cons_succ]
        exact hgt
      | j + 1 =>
        simp only [List.getD_cons_succ]
        exact hfirst j (by omega)

/-- C7: with `temperature == 0`, `select_action` returns the action of the
root child whose visit count is maximal, the first such child in dict
(insertion) order on ties; it is a pure function of the visit counts, hence
the same on every call. -/
theorem c7_select_action_greedy (ops : MathOps) (node : Node H)
    (sampler : List ℚ → ℕ) (unif : ℕ → ℕ) (c : ℕ × Node H) (cs : List (ℕ × Node H))
    (hc : node.children = c :: cs) :
    select_action ops node (.finite 0) sampler unif
      = some ((node.children.map (·.1)).getD
          (argmax (node.children.map (·.2.visit_count))) 0) ∧
    argmax (node.children.map (·.2.visit_count)) < node.children.length ∧
    (∀ j < node.children.length,
      (node.children.map (·.2.visit_count)).getD j 0
        ≤ (node.children.map (·.2.visit_count)).getD
            (argmax (node.children.map (·.2.visit_count))) 0) ∧
    (∀ j < argmax (node.children.map (·.2.visit_count)),
      (node.children.map (·.2.visit_count)).getD j 0
        < (node.children.map (·.2.visit_count)).getD
            (argmax (node.children.map (·.2.visit_count))) 0) := by
  have hspec := argmax_spec (c.2.visit_count) (cs.map (·.2.visit_count))
  have hmap : node.children.map (·.2.visit_count)
      = c.2.visit_count :: cs.map (·.2.visit_count) := by rw [hc]; simp
  have hlen : (node.children.map (·.2.visit_count)).length = node.children.length :=
    List.length_map _ _
  have hbound : argmax (node.children.map (·.2.visit_count)) < node.children.length := by
    rw [hmap]
    have := hspec.1
    simp only [List.length_cons] at this ⊢
    rw [hc]
    simpa using this
  refine ⟨?_, hbound, ?_, ?_⟩
  · have hsel : select_action ops node (.finite 0) sampler unif
        = (node.children.map (·.1))[argmax (node.children.map (·.2.visit_count))]? := by
      rw [select_action, hc]
      simp only [↓reduceIte]
    rw [hsel]
    have hlt : argmax (node.children.map (·.2.visit_count))
        < (node.children.map (·.1)).length := by
      rw [List.length_map]; exact hbound
    rw [List.getElem?_eq_getElem hlt, List.getD_eq_getElem _ _ hlt]
  · intro j hj
    rw [hmap]
    exact hspec.2.1 j (by rw [hmap] at hlen; omega)
  · intro j hj
    rw [hmap]
    exact hspec.2.2 j (by rw [hmap] at hj; exact hj)

/-- Lexicographic "not above": strictly smaller score, or equal score and
key at most as large.  This is the order Python's tuple comparison induces
on `(score, action)`. -/
def lexLE {α : Type _} (sc : α → ℚ) (k : α → ℕ) (a b : α) : Prop :=
  sc a < sc b ∨ (sc a = sc b ∧ k a ≤ k b)

theorem lexLE_refl {α : Type _} (sc : α → ℚ) (k : α → ℕ) (a : α) :
    lexLE sc k a a := Or.inr ⟨rfl, le_rfl⟩

theorem lexLE_trans {α : Type _} {sc : α → ℚ} {k : α → ℕ} {a b c : α}
    (h1 : lexLE sc k a b) (h2 : lexLE sc k b c) : lexLE sc k a c := by
  rcases h1 with h1 | ⟨h1e, h1k⟩ <;> rcases h2 with h2 | ⟨h2e, h2k⟩
  · exact Or.inl (h1.trans h2)
  · exact Or.inl (h2e ▸ h1)
  · exact Or.inl (h1e ▸ h2)
  · exact Or.inr ⟨h1e.trans h2e, h1k.trans h2k⟩

/-- The result of the tuple-max fold is a lexicographic upper bound of the
start element and every scanned element. -/
theorem foldl_lex_max {α : Type _} (sc : α → ℚ) (k : α → ℕ) :
    ∀ (cs : List α) (c x : α), x ∈ c :: cs →
      lexLE sc k x (cs.foldl
        (fun best q => if sc best < sc q ∨ (sc best = sc q ∧ k best < k q) then q else best)
        c) := by
  intro cs
  induction cs with
  | nil =>
    intro c x hx
    simp only [List.mem_singleton] at hx
    subst hx
    exact lexLE_refl sc k x
  | cons q qs ih =>
    intro c x hx
    simp only [List.foldl_cons]
    have hcq : lexLE sc k c
        (if sc c < sc q ∨ (sc c = sc q ∧ k c < k q) then q else c) := by
      by_cases hcond : sc c < sc q ∨ (sc c = sc q ∧ k c < k q)
      · rw [if_pos hcond]
        rcases hcond with h | ⟨he, hk⟩
        · exact Or.inl h
        · exact Or.inr ⟨he, hk.le⟩
      · rw [if_neg hcond]
        exact lexLE_refl sc k c
    have hqq : lexLE sc k q
        (if sc c < sc q ∨ (sc c = sc q ∧ k c < k q) then q else c) := by
      by_cases hcond : sc c < sc q ∨ (sc c = sc q ∧ k c < k q)
      · rw [if_pos hcond]
        exact lexLE_refl sc k q
      · rw [if_neg hcond]
        push_neg at hcond
        rcases lt_or_eq_of_le hcond.1 with h | h
        · exact Or.inl h
        · exact Or.inr ⟨h, hcond.2 h.symm⟩
    have hhead := ih (if sc c < sc q ∨ (sc c = sc q ∧ k c < k q) then q else c)
      (if sc c < sc q ∨ (sc c = sc q ∧ k c < k q) then q else c) (List.mem_cons_self _ _)
    rcases List.mem_cons.mp hx with rfl | hx2
    · exact lexLE_trans hcq hhead
    · rcases List.mem_cons.mp hx2 with rfl | hx3
      · exact lexLE_trans hqq hhead
      · exact ih _ x (List.mem_cons_of_mem _ hx3)

/-- C4: `select_child` returns a child of the node that maximizes
`ucb_score`, and on an exact score tie the child with the numerically
larger action identifier wins (the behavior of `max` over
`(score, action, child)` tuples). -/
theorem c4_select_child_max (cfg : Config) (ops : MathOps) (node : Node H)
    (mm : MinMaxStats) (ac : ℕ × Node H)
    (h : select_child cfg ops node mm = some ac) :
    ac ∈ node.children ∧
    ∀ bd ∈ node.children,
      ucb_score cfg ops node bd.2 mm < ucb_score cfg ops node ac.2 mm
      ∨ (ucb_score cfg ops node bd.2 mm = ucb_score cfg ops node ac.2 mm
          ∧ bd.1 ≤ ac.1) := by
  refine ⟨select_child_mem h, ?_⟩
  intro bd hbd
  unfold select_child at h
  cases hc : node.children with
  | nil => rw [hc] at h; simp at h
  | cons c cs =>
    rw [hc] at h
    simp only [Option.some.injEq] at h
    have := foldl_lex_max (fun p => ucb_score cfg ops node p.2 mm) Prod.fst cs c bd
      (by rw [← hc]; exact hbd)
    rw [h] at this
    exact this

def zeroOps : MathOps := ⟨fun _ => 0, fun _ => 0, fun _ => 0, fun _ _ => 0⟩

def c4cfg : Config := ⟨[0, 1], 1, 1, 0, 1, 0, 0, 0⟩

def c4node : Node Unit :=
  Node.mk 0 (-1) 0 0 [(0, Node.new (1/2)), (1, Node.new (1/2))] (some ()) 0

theorem c4_select_child_max_witness :
    select_child c4cfg zeroOps c4node MinMaxStats.new = some (1, Node.new (1/2)) ∧
    (1, Node.new (1/2)) ∈ c4node.children ∧
    ∀ bd ∈ c4node.children,
      ucb_score c4cfg zeroOps c4node bd.2 MinMaxStats.new
          < ucb_score c4cfg zeroOps c4node (1, (Node.new (1/2) : Node Unit)).2 MinMaxStats.new
      ∨ (ucb_score c4cfg zeroOps c4node bd.2 MinMaxStats.new
            = ucb_score c4cfg zeroOps c4node (1, (Node.new (1/2) : Node Unit)).2 MinMaxStats.new
          ∧ bd.1 ≤ (1, (Node.new (1/2) : Node Unit)).1) := by
  have hsel : select_child c4cfg zeroOps c4node MinMaxStats.new
      = some (1, Node.new (1/2)) := by
    norm_num [select_child, ucb_score, c4node, c4cfg, zeroOps, Node.children,
      Node.visit_count, Node.prior, Node.value, Node.new, MinMaxStats.new,
      MinMaxStats.normalize]
  have hmax := c4_select_child_max c4cfg zeroOps c4node MinMaxStats.new _ hsel
  exact ⟨hsel, hmax.1, hmax.2⟩

def c7node : Node Unit :=
  Node.mk 0 (-1) 0 0
    [(0, Node.mk 3 (-1) 0 0 [] none 0),
     (1, Node.mk 7 (-1) 0 0 [] none 0),
     (2, Node.mk 0 (-1) 0 0 [] none 0)] none 0

theorem c7_select_action_greedy_witness :
    select_action zeroOps c7node (.finite 0) (fun _ => 0) (fun _ => 0) = some 1 ∧
    (∀ j < c7node.children.length,
      (c7node.children.map (·.2.visit_count)).getD j 0
        ≤ (c7node.children.map (·.2.visit_count)).getD
            (argmax (c7node.children.map (·.2.visit_count))) 0) := by
  have h := c7_select_action_greedy zeroOps c7node (fun _ => 0) (fun _ => 0) _ _ rfl
  refine ⟨?_, h.2.2.1⟩
  rw [h.1]
  rfl

/-- The unnormalized `visit_count ** (1 / temperature)` row computed by
`select_action` for a finite temperature `t`. -/
def powDist (ops : MathOps) (node : Node H) (t : ℚ) : List ℚ :=
  (node.children.map (·.2.visit_count)).map fun (c : ℕ) => ops.pow (c : ℚ) (1 / t)

/-- Reduction of `select_action` for a finite nonzero temperature and a
non-empty child list: the normalized power distribution is validated
against summing to 1, then the sampled position indexes the action row. -/
theorem select_action_finite_branch (ops : MathOps) {node : Node H} {t : ℚ}
    (sampler : List ℚ → ℕ) (unif : ℕ → ℕ) (ht : t ≠ 0)
    {c : ℕ × Node H} {cs : List (ℕ × Node H)} (hc : node.children = c :: cs) :
    select_action ops node (.finite t) sampler unif =
      if ((powDist ops node t).map (· / (powDist ops node t).sum)).sum = 1 then
        (node.children.map (·.1))[sampler
          ((powDist ops node t).map (· / (powDist ops node t).sum))]?
      else none := by
  have htne : ¬ (Temp.finite t = Temp.finite 0) := by
    intro hcontra
    rw [Temp.finite.injEq] at hcontra
    exact ht hcontra
  have hinf : ¬ (Temp.finite t = Temp.inf) := by simp
  rw [select_action, hc]
  simp only [powDist, hc]
  rw [if_neg htne, if_neg hinf]

/-- C10: for a finite temperature `0 < t`, if some root child has a
positive visit count then the normalization sum is positive, the
distribution handed to `numpy.random.choice` sums to exactly 1 (so the
sampling branch succeeds), and the returned action is a key of
`node.children`; if instead every visit count is 0 the distribution is the
ill-defined `0/0` row, `numpy.random.choice` rejects it, and no action is
returned.  The hypotheses state the facts the source relies on about the
float power: `c ** (1/t)` is nonnegative, positive for `c > 0`, and
`0 ** (1/t) = 0` for `t > 0`. -/
theorem c10_select_action_sampling (ops : MathOps) (node : Node H) (t : ℚ)
    (sampler : List ℚ → ℕ) (unif : ℕ → ℕ) (ht : 0 < t)
    (hpow_nonneg : ∀ c : ℕ, 0 ≤ ops.pow (c : ℚ) (1 / t))
    (hpow_pos : ∀ c : ℕ, 0 < c → 0 < ops.pow (c : ℚ) (1 / t))
    (hpow_zero : ops.pow ((0 : ℕ) : ℚ) (1 / t) = 0) :
    ((∃ p ∈ node.children, 0 < p.2.visit_count) →
      0 < (powDist ops node t).sum ∧
      ((powDist ops node t).map (· / (powDist ops node t).sum)).sum = 1 ∧
      (sampler ((powDist ops node t).map (· / (powDist ops node t).sum))
          < node.children.length →
        ∃ a, select_action ops node (.finite t) sampler unif = some a
          ∧ a ∈ node.children.map (·.1))) ∧
    ((∀ p ∈ node.children, p.2.visit_count = 0) →
      select_action ops node (.finite t) sampler unif = none) := by
  constructor
  · rintro ⟨p, hp, hppos⟩
    have hne : node.children ≠ [] := by
      intro h0
      rw [h0] at hp
      exact absurd hp (List.not_mem_nil p)
    obtain ⟨c, cs, hc⟩ := List.exists_cons_of_ne_nil hne
    have hs_pos : 0 < (powDist ops node t).sum := by
      have hmem : ops.pow ((p.2.visit_count : ℕ) : ℚ) (1 / t) ∈ powDist ops node t := by
        unfold powDist
        exact List.mem_map_of_mem _ (List.mem_map_of_mem _ hp)
      have hle := List.single_le_sum
        (by
          intro x hx
          unfold powDist at hx
          obtain ⟨c1, _, rfl⟩ := List.mem_map.mp hx
          exact hpow_nonneg c1) _ hmem
      exact lt_of_lt_of_le (hpow_pos _ hppos) hle
    have hsum1 : ((powDist ops node t).map (· / (powDist ops node t).sum)).sum = 1 := by
      rw [list_sum_div, div_self hs_pos.ne']
    refine ⟨hs_pos, hsum1, ?_⟩
    intro hrange
    have hsel := select_action_finite_branch ops sampler unif ht.ne' hc
    rw [hsel, if_pos hsum1]
    have hlt : sampler ((powDist ops node t).map (· / (powDist ops node t).sum))
        < (node.children.map (·.1)).length := by
      rw [List.length_map]
      exact hrange
    refine ⟨(node.children.map (·.1)).get ⟨_, hlt⟩, ?_, ?_⟩
    · rw [List.getElem?_eq_getElem hlt]
      simp
    · exact List.get_mem _ _ hlt
  · intro hzero
    by_cases hnil : node.children = []
    · rw [select_action, hnil]
    · obtain ⟨c, cs, hc⟩ := List.exists_cons_of_ne_nil hnil
      have hd0 : powDist ops node t = List.replicate (node.children.length) 0 := by
        unfold powDist
        rw [List.map_map]
        apply List.eq_replicate_iff.mpr
        refine ⟨by simp, ?_⟩
        intro b hb
        obtain ⟨q, hq, rfl⟩ := List.mem_map.mp hb
        simp only [Function.comp_apply]
        rw [hzero q hq]
        exact hpow_zero
      have hbad : ((powDist ops node t).map (· / (powDist ops node t).sum)).sum = 0 := by
        rw [hd0]
        simp
      rw [select_action_finite_branch ops sampler unif ht.ne' hc, if_neg]
      rw [hbad]
      norm_num

def c10node : Node Unit := Node.mk 0 (-1) 0 0 [(5, Node.mk 1 (-1) 0 0 [] none 0)] none 0

def powOps : MathOps := ⟨fun _ => 0, fun _ => 0, fun _ => 0, fun c _ => c⟩

theorem c10_select_action_sampling_witness :
    0 < (powDist powOps c10node 2).sum ∧
    ∃ a, select_action powOps c10node (.finite 2) (fun _ => 0) (fun _ => 0) = some a
      ∧ a ∈ c10node.children.map (·.1) := by
  have h := (c10_select_action_sampling powOps c10node 2 (fun _ => 0) (fun _ => 0)
    (by norm_num)
    (by intro c; simp only [powOps]; exact Nat.cast_nonneg c)
    (by intro c hcp; simp only [powOps]; exact_mod_cast hcp)
    (by norm_num [powOps])).1
    ⟨(5, Node.mk 1 (-1) 0 0 [] none 0), by simp [c10node, Node.children],
      by decide⟩
  exact ⟨h.1, h.2.2 (by decide)⟩

/-- The `GameHistory` length invariant of the spec. -/
def ghInv (g : GameHistory Obs) : Prop :=
  g.history.length = g.rewards.length ∧
  g.history.length = g.child_visits.length ∧
  g.history.length = g.root_values.length ∧
  g.observation_history.length = g.history.length + 1

/-- C6: the `GameHistory` invariant — `history`, `rewards`, `child_visits`
and `root_values` always have equal lengths and `observation_history` is
one longer — holds for the initial state of `play_game`, is preserved by
every iteration of its episode loop, and therefore holds after every move
and for the history `play_game` returns. -/
theorem c6_game_history_invariant {S : Type} (cfg : Config) (ops : MathOps)
    (model : Model Obs H) (game : Game Obs S) (noise : ℕ → List ℚ)
    (sampler : ℕ → List ℚ → ℕ) (unif : ℕ → ℕ → ℕ) (temperature : Temp) :
    ghInv (initPlayState cfg game).gh ∧
    (∀ st st' : PlayState Obs S, ghInv st.gh →
      play_step cfg ops model game noise sampler unif temperature st = some st' →
      ghInv st'.gh) ∧
    (∀ (fuel : ℕ) (st st' : PlayState Obs S), ghInv st.gh →
      play_loop cfg ops model game noise sampler unif temperature fuel st = some st' →
      ghInv st'.gh) ∧
    (∀ g : GameHistory Obs,
      play_game cfg ops model game noise sampler unif temperature = some g →
      ghInv g) := by
  have hinit : ghInv (initPlayState cfg game).gh := by
    simp [ghInv, initPlayState, GameHistory.new]
  have hstep : ∀ st st' : PlayState Obs S, ghInv st.gh →
      play_step cfg ops model game noise sampler unif temperature st = some st' →
      ghInv st'.gh := by
    intro st st' hinv hrun
    unfold play_step at hrun
    obtain ⟨root, _, hrun2⟩ := Option.bind_eq_some.mp hrun
    obtain ⟨action, _, hrun3⟩ := Option.bind_eq_some.mp hrun2
    simp only [Option.some.injEq] at hrun3
    subst hrun3
    obtain ⟨h1, h2, h3, h4⟩ := hinv
    simp only [ghInv, store_search_statistics, List.length_append, List.length_cons,
      List.length_nil]
    omega
  have hloop : ∀ (fuel : ℕ) (st st' : PlayState Obs S), ghInv st.gh →
      play_loop cfg ops model game noise sampler unif temperature fuel st = some st' →
      ghInv st'.gh := by
    intro fuel
    induction fuel with
    | zero =>
      intro st st' hinv hrun
      simp only [play_loop, Option.some.injEq] at hrun
      exact hrun ▸ hinv
    | succ n ih =>
      intro st st' hinv hrun
      simp only [play_loop] at hrun
      by_cases hcond : st.done = false ∧ st.gh.history.length < cfg.max_moves
      · rw [if_pos hcond] at hrun
        obtain ⟨st1, hst1, hrest⟩ := Option.bind_eq_some.mp hrun
        exact ih st1 st' (hstep st st1 hinv hst1) hrest
      · rw [if_neg hcond] at hrun
        simp only [Option.some.injEq] at hrun
        exact hrun ▸ hinv
  refine ⟨hinit, hstep, hloop, ?_⟩
  intro g hrun
  unfold play_game at hrun
  obtain ⟨st', hst', hg⟩ := Option.map_eq_some'.mp hrun
  exact hg ▸ hloop cfg.max_moves _ st' hinit hst'

def c6cfg : Config := ⟨[0], 1, 1, 1, 0, 0, 0, 0⟩

def c6game : Game Unit Unit := ⟨((), ()), fun _ _ => ((), 0, true, ())⟩

def c6model : Model Unit Unit :=
  ⟨fun _ => (0, 0, fun _ => 0, ()), fun _ _ => (0, 0, fun _ => 0, ())⟩

theorem c6_game_history_invariant_witness :
    ghInv (initPlayState c6cfg c6game).gh ∧
    ghInv ((initPlayState c6cfg c6game).gh) := by
  have h := c6_game_history_invariant c6cfg zeroOps c6model c6game
    (fun _ => []) (fun _ _ => 0) (fun _ _ => 0) (.finite 0)
  exact ⟨h.1, h.2.2.2 _ rfl⟩

/-- The C2 scenario: action space `[0, 1, 2]`, one simulation, no
exploration noise.  `log` and `sqrt` are modeled by `id` (only `sqrt 0`,
which is 0, ever matters here) and `exp` by `id`, so the initial policy
logits `[1/5, 1/2, 3/10]` normalize to the priors `[0.2, 0.5, 0.3]` of the
scenario. -/
def c2cfg : Config := ⟨[0, 1, 2], 1/2, 19652, 5/4, 1, 0, 0, 10⟩

def c2ops : MathOps := ⟨id, id, id, fun _ _ => 0⟩

def c2model : Model Unit Unit :=
  ⟨fun _ => (0, 0, fun a => if a = 0 then 1/5 else if a = 1 then 1/2 else 3/10, ()),
   fun _ _ => (1, 1, fun _ => 1, ())⟩

/-- The subtree produced at action 2 by the single simulation: selected
(all UCB scores tie at 0 because `sqrt(parent.visit_count) = 0`, and the
tuple tie-break favors the largest action), expanded with uniform priors,
and backed up with `reward + discount * value = 1/2`. -/
def c2child2 : Node Unit :=
  Node.mk 1 (-1) (3/10) (1/2)
    [(0, Node.new (1/3)), (1, Node.new (1/3)), (2, Node.new (1/3))] (some ()) 1

def c2result : Node Unit :=
  Node.mk 1 (-1) 0 1
    [(0, Node.new (1/5)), (1, Node.new (1/2)), (2, c2child2)] (some ()) 0

/-- The root of the scenario right after its expansion, before the
simulation loop. -/
def c2root : Node Unit :=
  Node.mk 0 (-1) 0 0
    [(0, Node.new (1/5)), (1, Node.new (1/2)), (2, Node.new (3/10))] (some ()) 0

theorem c2_select_root :
    select_child c2cfg c2ops c2root MinMaxStats.new = some (2, Node.new (3/10)) := by
  norm_num [select_child, ucb_score, c2root, c2cfg, c2ops, Node.children, Node.new,
    Node.visit_count, Node.prior, Node.value, Node.value_sum, MinMaxStats.new,
    MinMaxStats.normalize]

theorem c2_select_leaf :
    select_child c2cfg c2ops (Node.new (3/10) : Node Unit) MinMaxStats.new = none := by
  norm_num [select_child, Node.new, Node.children]

theorem c2_descend :
    descend c2cfg c2ops MinMaxStats.new c2root = [2] := by
  conv_lhs => rw [descend.eq_def]
  split
  · rename_i heq
    rw [c2_select_root] at heq
    exact absurd heq (by simp)
  · rename_i ac heq
    rw [c2_select_root] at heq
    injection heq with h2
    subst h2
    show (2 : ℕ) :: descend c2cfg c2ops MinMaxStats.new (Node.new (3/10)) = [2]
    conv_lhs => rw [descend.eq_def]
    split
    · rfl
    · rename_i ac2 heq2
      rw [c2_select_leaf] at heq2
      exact absurd heq2 (by simp)

theorem c2_simulate :
    simulate c2cfg c2ops c2model (c2root, MinMaxStats.new)
      = some (c2result, ⟨some 1, some (1/2)⟩) := by
  unfold simulate
  simp only [c2_descend]
  norm_num [getAt, lookupChild, updateAt, pathNodes, setStats, writeBack,
    backpropagate, Node.expand, expandChildren, Node.new, Node.children,
    Node.visit_count, Node.to_play, Node.prior, Node.value_sum, Node.reward,
    Node.hidden_state, Node.value, MinMaxStats.new, MinMaxStats.update,
    MinMaxStats.normalize, c2model, c2ops, c2cfg, c2root, c2result, c2child2]

theorem c2_run_eval :
    MCTS.run c2cfg c2ops c2model [] () false = some c2result := by
  have hrun : MCTS.run c2cfg c2ops c2model [] () false
      = (runSims c2cfg c2ops c2model 1 (c2root, MinMaxStats.new)).map (·.1) := by
    unfold MCTS.run
    norm_num [c2model, c2cfg, c2ops, Node.expand, expandChildren, Node.new,
      Node.children, Node.visit_count, Node.to_play, Node.prior, Node.value_sum,
      c2root]
  rw [hrun]
  rw [show runSims c2cfg c2ops c2model 1 (c2root, MinMaxStats.new)
      = (simulate c2cfg c2ops c2model (c2root, MinMaxStats.new)).bind
          (runSims c2cfg c2ops c2model 0) from rfl]
  rw [c2_simulate]
  rfl

/-- C2: the claim as stated is FALSE on the code.  In the scenario
(action space `[0,1,2]`, root priors `[0.2, 0.5, 0.3]`, one simulation, no
noise) the root's visit count after `run` is 1, not 2, and the child at
action 1 is never visited: with `root.visit_count = 0` the UCB prior term
is multiplied by `sqrt(0) = 0`, every score ties at 0, and the tuple-max
tie-break selects the LARGEST action, 2. -/
theorem c2_counterexample :
    ¬ ((MCTS.run c2cfg c2ops c2model [] () false).map Node.visit_count = some 2 ∧
       ((MCTS.run c2cfg c2ops c2model [] () false).bind
          fun r => (lookupChild r 1).map Node.visit_count) = some 1) := by
  rw [c2_run_eval]
  simp [c2result, c2child2, lookupChild, List.find?, Node.children,
    Node.visit_count, Node.new]

/-- C2 (amended): in the scenario the single simulation selects the child
with action 2 (all UCB scores tie at 0 because `sqrt(parent.visit_count) = 0`
kills the prior term, and the tuple tie-break favors the larger action),
expands it, and backpropagates a value into both the root and that child,
leaving the root with `visit_count = 1` (and `value_sum = 1`, the raw
model value) and child 2 with `visit_count = 1` (and
`value_sum = reward + discount * value = 1/2`); children 0 and 1 stay
unvisited and unexpanded, and the root priors are `[0.2, 0.5, 0.3]`. -/
theorem c2_amended :
    (MCTS.run c2cfg c2ops c2model [] () false).map Node.visit_count = some 1 ∧
    (MCTS.run c2cfg c2ops c2model [] () false).map Node.value_sum = some 1 ∧
    ((MCTS.run c2cfg c2ops c2model [] () false).bind
      fun r => (lookupChild r 2).map Node.visit_count) = some 1 ∧
    ((MCTS.run c2cfg c2ops c2model [] () false).bind
      fun r => (lookupChild r 2).map Node.value_sum) = some (1/2) ∧
    ((MCTS.run c2cfg c2ops c2model [] () false).bind
      fun r => (lookupChild r 2).map Node.expanded) = some true ∧
    ((MCTS.run c2cfg c2ops c2model [] () false).bind
      fun r => (lookupChild r 0).map Node.visit_count) = some 0 ∧
    ((MCTS.run c2cfg c2ops c2model [] () false).bind
      fun r => (lookupChild r 1).map Node.visit_count) = some 0 ∧
    ((MCTS.run c2cfg c2ops c2model [] () false).bind
      fun r => (lookupChild r 1).map Node.expanded) = some false ∧
    (MCTS.run c2cfg c2ops c2model [] () false).map
        (fun r => r.children.map fun p => (p.1, p.2.prior))
      = some [(0, 1/5), (1, 1/2), (2, 3/10)] := by
  rw [c2_run_eval]
  simp [c2result, c2child2, lookupChild, List.find?, Node.children,
    Node.visit_count, Node.value_sum, Node.expanded, Node.prior, Node.new]

/-- Well-formedness of the search tree built by `MCTS.run`: every node is
either unexpanded (no children) or was expanded with exactly the full
configured action space as its child-key list (in order) and carries a
hidden state.  The key clause is the C9 property: expansion inside `run`
always passes the full `action_space`, never a legal-action subset. -/
inductive TreeOK (as : List ℕ) : Node H → Prop where
  | leaf : ∀ n : Node H, n.children = [] → TreeOK as n
  | expd : ∀ n : Node H, n.children.map Prod.fst = as →
      n.hidden_state.isSome = true →
      (∀ p ∈ n.children, TreeOK as p.2) → TreeOK as n

theorem tree_ok_children {as : List ℕ} {n : Node H} (h : TreeOK as n) :
    ∀ p ∈ n.children, TreeOK as p.2 := by
  cases h with
  | leaf n h0 =>
    intro p hp
    rw [h0] at hp
    cases hp
  | expd n _ _ hch => exact hch

theorem tree_ok_expanded {as : List ℕ} {n : Node H} (h : TreeOK as n)
    (hne : n.children ≠ []) :
    n.children.map Prod.fst = as ∧ n.hidden_state.isSome = true := by
  cases h with
  | leaf n h0 => exact absurd h0 hne
  | expd n hk hh _ => exact ⟨hk, hh⟩

/-- `TreeOK` only looks at `children` and `hidden_state`. -/
theorem tree_ok_congr {as : List ℕ} {n m : Node H} (h : TreeOK as n)
    (hc : m.children = n.children) (hh : m.hidden_state = n.hidden_state) :
    TreeOK as m := by
  cases h with
  | leaf n h0 => exact TreeOK.leaf m (hc.trans h0)
  | expd n hk hh2 hrec =>
    refine TreeOK.expd m ?_ ?_ ?_
    · rw [hc]; exact hk
    · rw [hh]; exact hh2
    · rw [hc]; exact hrec

theorem expandChildren_keys (ops : MathOps) (actions : List ℕ) (logits : ℕ → ℚ) :
    (expandChildren ops actions logits : List (ℕ × Node H)).map Prod.fst = actions := by
  simp [expandChildren, List.map_map, Function.comp_def]

theorem expandChildren_mem (ops : MathOps) (actions : List ℕ) (logits : ℕ → ℚ) :
    ∀ p ∈ (expandChildren ops actions logits : List (ℕ × Node H)),
      p.2.children = [] := by
  intro p hp
  simp only [expandChildren, List.map_map, List.mem_map] at hp
  obtain ⟨a, _, rfl⟩ := hp
  simp [Node.new, Node.children]

/-- The child-update map used by `updateAt` and `writeBack` preserves the
key list. -/
theorem map_fst_update (l : List (ℕ × Node H)) (a : ℕ) (F : Node H → Node H) :
    (l.map fun q => if q.1 = a then (q.1, F q.2) else q).map Prod.fst
      = l.map Prod.fst := by
  rw [List.map_map]
  apply List.map_congr_left
  intro q _
  by_cases hq : q.1 = a <;> simp [hq]

theorem find_key_map_update (l : List (ℕ × Node H)) (a : ℕ) (F : Node H → Node H) :
    (l.map fun q => if q.1 = a then (q.1, F q.2) else q).find? (fun p => p.1 == a)
      = (l.find? fun p => p.1 == a).map fun p => (p.1, F p.2) := by
  induction l with
  | nil => simp
  | cons q qs ih =>
    by_cases hq : q.1 = a
    · rw [List.map_cons, if_pos hq]
      rw [List.find?_cons_of_pos _ (by simpa using hq),
        List.find?_cons_of_pos _ (by simpa using hq)]
      simp
    · rw [List.map_cons, if_neg hq]
      rw [List.find?_cons_of_neg _ (by simpa using hq),
        List.find?_cons_of_neg _ (by simpa using hq)]
      exact ih

theorem lookupChild_updateAt (n : Node H) (a : ℕ) (rest : List ℕ)
    (f : Node H → Node H) :
    lookupChild (updateAt n (a :: rest) f) a
      = (lookupChild n a).map fun c => updateAt c rest f := by
  cases n with
  | mk v t p s c h r =>
    show lookupChild (Node.mk v t p s
      (c.map fun q => if q.1 = a then (q.1, updateAt q.2 rest f) else q) h r) a = _
    unfold lookupChild
    simp only [Node.children]
    have hfk := find_key_map_update c a fun x => updateAt x rest f
    rw [hfk]
    cases c.find? fun p => p.1 == a <;> simp

/-- A successful dict lookup means the pair is in the children list. -/
theorem lookupChild_mem {n : Node H} {a : ℕ} {c : Node H}
    (h : lookupChild n a = some c) : (a, c) ∈ n.children := by
  unfold lookupChild at h
  obtain ⟨p, hp, hpc⟩ := Option.map_eq_some'.mp h
  have hmem := List.mem_of_find?_eq_some hp
  have hpred := List.find?_some hp
  obtain ⟨p1, p2⟩ := p
  simp only [beq_iff_eq] at hpred
  subst hpred
  subst hpc
  exact hmem

/-- With duplicate-free keys, the first match of `find?` is the member. -/
theorem find_key_of_mem_nodup {l : List (ℕ × Node H)}
    (hnd : (l.map Prod.fst).Nodup) {a : ℕ} {c : Node H} (hmem : (a, c) ∈ l) :
    l.find? (fun p => p.1 == a) = some (a, c) := by
  induction l with
  | nil => cases hmem
  | cons q qs ih =>
    rcases List.mem_cons.mp hmem with rfl | hmem2
    · rw [List.find?_cons_of_pos _ (by simp)]
    · have hqa : q.1 ≠ a := by
        intro hq
        have ha : a ∈ qs.map Prod.fst := by
          have : (a, c).1 ∈ qs.map Prod.fst := List.mem_map_of_mem Prod.fst hmem2
          simpa using this
        rw [List.map_cons, List.nodup_cons, hq] at hnd
        exact hnd.1 ha
      rw [List.find?_cons_of_neg _ (by simpa using hqa)]
      exact ih (by rw [List.map_cons, List.nodup_cons] at hnd; exact hnd.2) hmem2

theorem lookupChild_of_mem {n : Node H} (hnd : (n.children.map Prod.fst).Nodup)
    {a : ℕ} {c : Node H} (hmem : (a, c) ∈ n.children) :
    lookupChild n a = some c := by
  unfold lookupChild
  rw [find_key_of_mem_nodup hnd hmem]
  rfl

theorem select_child_none_iff (cfg : Config) (ops : MathOps) (n : Node H)
    (mm : MinMaxStats) :
    select_child cfg ops n mm = none ↔ n.children = [] := by
  unfold select_child
  cases hc : n.children <;> simp

theorem descend_nil_of (cfg : Config) (ops : MathOps) (mm : MinMaxStats)
    {n : Node H} (h : n.children = []) : descend cfg ops mm n = [] := by
  rw [descend.eq_def]
  split
  · rfl
  · rename_i ac heq
    rw [(select_child_none_iff cfg ops n mm).mpr h] at heq
    cases heq

theorem descend_cons (cfg : Config) (ops : MathOps) (mm : MinMaxStats)
    {n : Node H} {ac : ℕ × Node H} (hsel : select_child cfg ops n mm = some ac) :
    descend cfg ops mm n = ac.1 :: descend cfg ops mm ac.2 := by
  rw [descend.eq_def]
  split
  · rename_i heq
    rw [hsel] at heq
    cases heq
  · rename_i ac2 heq
    rw [hsel] at heq
    injection heq with h2
    rw [h2]

/-- The walk of `descend` through a well-formed tree with duplicate-free
keys reaches an unexpanded leaf; the node before it (the leaf's parent) is
expanded and well-formed, and the whole `search_path` node list exists. -/
theorem descend_spec (cfg : Config) (ops : MathOps) (mm : MinMaxStats)
    (as : List ℕ) (hnd : as.Nodup) :
    ∀ (k : ℕ) (n : Node H), sizeOf n ≤ k → TreeOK as n → n.children ≠ [] →
      ∃ parent leaf sp,
        descend cfg ops mm n ≠ [] ∧
        getAt n (descend cfg ops mm n).dropLast = some parent ∧
        parent.children ≠ [] ∧ TreeOK as parent ∧
        getAt n (descend cfg ops mm n) = some leaf ∧ leaf.children = [] ∧
        pathNodes n (descend cfg ops mm n) = some sp := by
  intro k
  induction k with
  | zero =>
    intro n hsz
    cases n with
    | mk v t p s c h r =>
      simp only [Node.mk.sizeOf_spec] at hsz
      omega
  | succ k ih =>
    intro n hsz hok hne
    cases hsel : select_child cfg ops n mm with
    | none => exact absurd ((select_child_none_iff cfg ops n mm).mp hsel) hne
    | some ac =>
      have hd := descend_cons cfg ops mm hsel
      have hmem := select_child_mem hsel
      have hkeys := tree_ok_expanded hok hne
      have hnodupkeys : (n.children.map Prod.fst).Nodup := by
        rw [hkeys.1]; exact hnd
      have hlookup : lookupChild n ac.1 = some ac.2 := by
        apply lookupChild_of_mem hnodupkeys
        exact hmem
      have hsz2 : sizeOf ac.2 ≤ k := by
        have := select_child_sizeOf hsel
        omega
      have hchildok : TreeOK as ac.2 := tree_ok_children hok ac hmem
      by_cases hleaf : ac.2.children = []
      · have hdc : descend cfg ops mm ac.2 = [] := descend_nil_of cfg ops mm hleaf
        refine ⟨n, ac.2, [n, ac.2], ?_, ?_, hne, hok, ?_, hleaf, ?_⟩
        · rw [hd]; simp
        · rw [hd, hdc]
          simp [getAt]
        · rw [hd, hdc]
          simp [getAt, hlookup]
        · rw [hd, hdc]
          simp [pathNodes, hlookup]
      · obtain ⟨parent, leaf, sp, ihne, ihpar, ihparne, ihparok, ihleaf, ihleafc, ihsp⟩ :=
          ih ac.2 hsz2 hchildok hleaf
        refine ⟨parent, leaf, n :: sp, ?_, ?_, ihparne, ihparok, ?_, ihleafc, ?_⟩
        · rw [hd]; simp
        · rw [hd, List.dropLast_cons_of_ne_nil ihne]
          simp [getAt, hlookup, ihpar]
        · rw [hd]
          simp [getAt, hlookup, ihleaf]
        · rw [hd]
          simp [pathNodes, hlookup, ihsp]

/-- `pathNodes` starts with the node itself. -/
theorem pathNodes_head {n : Node H} {path : List ℕ} {l : List (Node H)}
    (h : pathNodes n path = some l) : ∃ tl, l = n :: tl := by
  cases path with
  | nil =>
    simp only [pathNodes, Option.some.injEq] at h
    exact ⟨[], h.symm⟩
  | cons a rest =>
    simp only [pathNodes] at h
    obtain ⟨c, hc, hrest⟩ := Option.bind_eq_some.mp h
    obtain ⟨l2, _, hmap⟩ := Option.map_eq_some'.mp hrest
    exact ⟨l2, hmap.symm⟩

/-- Rewriting the subtree at the end of a walkable path keeps the path
walkable (`updateAt` preserves all keys along it). -/
theorem pathNodes_updateAt (f : Node H → Node H) :
    ∀ (path : List ℕ) (n : Node H), (pathNodes n path).isSome →
      (pathNodes (updateAt n path f) path).isSome := by
  intro path
  induction path with
  | nil =>
    intro n _
    simp [pathNodes]
  | cons a rest ih =>
    intro n hsome
    simp only [pathNodes] at hsome
    cases hl : lookupChild n a with
    | none => rw [hl] at hsome; simp at hsome
    | some c =>
      rw [hl] at hsome
      simp only [Option.some_bind, Option.isSome_map'] at hsome
      simp only [pathNodes, lookupChild_updateAt, hl, Option.map_some',
        Option.some_bind, Option.isSome_map']
      exact ih c hsome

theorem Node.children_mk (v : ℕ) (t : ℤ) (p s : ℚ) (c : List (ℕ × Node H))
    (h : Option H) (r : ℚ) : (Node.mk v t p s c h r).children = c := rfl

theorem Node.hidden_state_mk (v : ℕ) (t : ℤ) (p s : ℚ) (c : List (ℕ × Node H))
    (h : Option H) (r : ℚ) : (Node.mk v t p s c h r).hidden_state = h := rfl

theorem Node.visit_count_mk (v : ℕ) (t : ℤ) (p s : ℚ) (c : List (ℕ × Node H))
    (h : Option H) (r : ℚ) : (Node.mk v t p s c h r).visit_count = v := rfl

/-- Mapping a key-preserving transformation over an association list keeps
the key list. -/
theorem map_fst_of_key_preserving (l : List (ℕ × Node H))
    (G : ℕ × Node H → ℕ × Node H) (hG : ∀ q, (G q).1 = q.1) :
    (l.map G).map Prod.fst = l.map Prod.fst := by
  rw [List.map_map]
  apply List.map_congr_left
  intro q _
  exact hG q

theorem setStats_def (m n : Node H) :
    setStats m n = Node.mk m.visit_count n.to_play n.prior m.value_sum
      n.children n.hidden_state n.reward := rfl

theorem updateAt_cons_def (n : Node H) (a : ℕ) (rest : List ℕ)
    (f : Node H → Node H) :
    updateAt n (a :: rest) f
      = Node.mk n.visit_count n.to_play n.prior n.value_sum
          (n.children.map fun q => if q.1 = a then (q.1, updateAt q.2 rest f) else q)
          n.hidden_state n.reward := by
  cases n
  rfl

theorem writeBack_cons_def (t : Node H) (a : ℕ) (rest : List ℕ) (m : Node H)
    (ms : List (Node H)) :
    writeBack t (a :: rest) (m :: ms)
      = Node.mk m.visit_count t.to_play t.prior m.value_sum
          (t.children.map fun q => if q.1 = a then (q.1, writeBack q.2 rest ms) else q)
          t.hidden_state t.reward := by
  cases t
  rfl

theorem backpropagate_cons_fst (cfg : Config) (x : Node H) (xs : List (Node H))
    (v : ℚ) (mm : MinMaxStats) :
    (backpropagate cfg (x :: xs) v mm).1
      = Node.mk (x.visit_count + 1) x.to_play x.prior (x.value_sum + v)
          x.children x.hidden_state x.reward
        :: (backpropagate cfg xs (x.reward + cfg.discount * v)
            (mm.update ((Node.mk (x.visit_count + 1) x.to_play x.prior
              (x.value_sum + v) x.children x.hidden_state x.reward : Node H).value))).1 := by
  simp [backpropagate]

/-- Expanding the unexpanded leaf at the end of a reachable path preserves
tree well-formedness: the fresh children's keys are the full action space. -/
theorem tree_ok_updateAt_expand (ops : MathOps) (as : List ℕ)
    (hnd : as.Nodup) (reward : ℚ) (logits : ℕ → ℚ) (hidden : H) :
    ∀ (path : List ℕ) (n leaf : Node H), TreeOK as n →
      getAt n path = some leaf → leaf.children = [] →
      TreeOK as (updateAt n path
        fun lf => lf.expand ops as reward logits hidden) := by
  intro path
  induction path with
  | nil =>
    intro n leaf hok hget hlc
    simp only [getAt, Option.some.injEq] at hget
    subst hget
    show TreeOK as (n.expand ops as reward logits hidden)
    have hch : (n.expand ops as reward logits hidden).children
        = n.children ++ expandChildren ops as logits := rfl
    have hhd : (n.expand ops as reward logits hidden).hidden_state = some hidden := rfl
    refine TreeOK.expd _ ?_ ?_ ?_
    · rw [hch, hlc, List.nil_append, expandChildren_keys]
    · rw [hhd]
      rfl
    · intro p hp
      rw [hch, hlc, List.nil_append] at hp
      exact TreeOK.leaf _ (expandChildren_mem ops as logits p hp)
  | cons a rest ih =>
    intro n leaf hok hget hlc
    simp only [getAt] at hget
    obtain ⟨c, hc, hgetc⟩ := Option.bind_eq_some.mp hget
    have hne : n.children ≠ [] := by
      intro h0
      have := lookupChild_mem hc
      rw [h0] at this
      cases this
    have hkeys := tree_ok_expanded hok hne
    have hnodupkeys : (n.children.map Prod.fst).Nodup := by rw [hkeys.1]; exact hnd
    rw [updateAt_cons_def]
    refine TreeOK.expd _ ?_ ?_ ?_
    · rw [Node.children_mk]
      rw [map_fst_of_key_preserving _ _
        (by intro q; by_cases hq : q.1 = a <;> simp [hq])]
      exact hkeys.1
    · rw [Node.hidden_state_mk]
      exact hkeys.2
    · rw [Node.children_mk]
      intro q hq
      obtain ⟨q0, hq0, rfl⟩ := List.mem_map.mp hq
      by_cases hqa : q0.1 = a
      · rw [if_pos hqa]
        have hq02 : lookupChild n a = some q0.2 := by
          apply lookupChild_of_mem hnodupkeys
          have heta : (a, q0.2) = q0 := by
            obtain ⟨q1, q2⟩ := q0
            simp only at hqa
            rw [hqa]
          exact heta ▸ hq0
        rw [hc] at hq02
        injection hq02 with hceq
        rw [hceq] at hgetc
        exact ih q0.2 leaf (tree_ok_children hok q0 hq0) hgetc hlc
      · rw [if_neg hqa]
        exact tree_ok_children hok q0 hq0

/-- Writing backed-up statistics onto the tree preserves well-formedness:
`setStats` touches neither children nor hidden state. -/
theorem tree_ok_writeBack {as : List ℕ} :
    ∀ (path : List ℕ) (ms : List (Node H)) (t : Node H), TreeOK as t →
      TreeOK as (writeBack t path ms) := by
  intro path
  induction path with
  | nil =>
    intro ms t h
    cases ms with
    | nil => exact h
    | cons m ms' => exact tree_ok_congr h rfl rfl
  | cons a rest ih =>
    intro ms t h
    cases ms with
    | nil => exact h
    | cons m ms' =>
      rw [writeBack_cons_def]
      cases h with
      | leaf t h0 =>
        refine TreeOK.leaf _ ?_
        rw [Node.children_mk, h0]
        rfl
      | expd t hk hh hall =>
        refine TreeOK.expd _ ?_ ?_ ?_
        · rw [Node.children_mk]
          rw [map_fst_of_key_preserving _ _
            (by intro q; by_cases hq : q.1 = a <;> simp [hq])]
          exact hk
        · rw [Node.hidden_state_mk]
          exact hh
        · rw [Node.children_mk]
          intro q hq
          obtain ⟨q0, hq0, rfl⟩ := List.mem_map.mp hq
          by_cases hqa : q0.1 = a
          · rw [if_pos hqa]
            exact ih ms' q0.2 (hall q0 hq0)
          · rw [if_neg hqa]
            exact hall q0 hq0

theorem zip_map_fst_take {A B : Type _} :
    ∀ (l : List A) (l2 : List B), (l.zip l2).map Prod.fst = l.take l2.length := by
  intro l
  induction l with
  | nil => intro l2; simp
  | cons x xs ih =>
    intro l2
    cases l2 with
    | nil => simp
    | cons y ys => simp [ih ys]

/-- Dirichlet root noise only rescales priors: child keys, child subtrees'
children and hidden states, the node's own visit count and hidden state are
unchanged. -/
theorem add_exploration_noise_keys (n : Node H) (noise : List ℚ) (frac : ℚ) :
    (n.add_exploration_noise noise frac).children.map Prod.fst
      = n.children.map Prod.fst ∧
    (n.add_exploration_noise noise frac).visit_count = n.visit_count ∧
    (n.add_exploration_noise noise frac).hidden_state = n.hidden_state := by
  refine ⟨?_, rfl, rfl⟩
  show ((((n.children.zip noise).map fun pn : (ℕ × Node H) × ℚ =>
      (pn.1.1, match pn.1.2 with
        | .mk v t p s c h r => Node.mk v t (p * (1 - frac) + pn.2 * frac) s c h r))
      ++ n.children.drop noise.length).map Prod.fst) = n.children.map Prod.fst
  rw [List.map_append, List.map_map]
  have h1 : ((n.children.zip noise).map
      (Prod.fst ∘ fun pn : (ℕ × Node H) × ℚ =>
        (pn.1.1, match pn.1.2 with
          | .mk v t p s c h r => Node.mk v t (p * (1 - frac) + pn.2 * frac) s c h r)))
      = ((n.children.zip noise).map Prod.fst).map Prod.fst := by
    rw [List.map_map]
    apply List.map_congr_left
    intro q _
    rfl
  rw [h1, zip_map_fst_take, ← List.map_append, List.take_append_drop]

theorem noise_child_fields (m : Node H) (w frac : ℚ) :
    (match m with
      | .mk v t p s c h r => Node.mk v t (p * (1 - frac) + w * frac) s c h r :
        Node H).children = m.children ∧
    (match m with
      | .mk v t p s c h r => Node.mk v t (p * (1 - frac) + w * frac) s c h r :
        Node H).hidden_state = m.hidden_state := by
  cases m
  exact ⟨rfl, rfl⟩

theorem tree_ok_noise {as : List ℕ} {n : Node H} (h : TreeOK as n)
    (noise : List ℚ) (frac : ℚ) :
    TreeOK as (n.add_exploration_noise noise frac) := by
  cases h with
  | leaf n h0 =>
    refine TreeOK.leaf _ ?_
    show (((n.children.zip noise).map _) ++ n.children.drop noise.length) = []
    rw [h0]
    simp
  | expd n hk hh hall =>
    refine TreeOK.expd _ ?_ ?_ ?_
    · rw [(add_exploration_noise_keys n noise frac).1]
      exact hk
    · rw [(add_exploration_noise_keys n noise frac).2.2]
      exact hh
    · intro q hq
      have hq2 : q ∈ (((n.children.zip noise).map fun pn =>
          (pn.1.1, match pn.1.2 with
            | .mk v t p s c h r =>
                Node.mk v t (p * (1 - frac) + pn.2 * frac) s c h r))
          ++ n.children.drop noise.length) := hq
      rcases List.mem_append.mp hq2 with hmix | hdrop
      · obtain ⟨pn, hpn, rfl⟩ := List.mem_map.mp hmix
        have hmem := (List.of_mem_zip hpn).1
        have hsub := hall pn.1 hmem
        exact tree_ok_congr hsub (noise_child_fields pn.1.2 pn.2 frac).1
          (noise_child_fields pn.1.2 pn.2 frac).2
      · exact hall q (List.mem_of_mem_drop hdrop)

/-- One simulation of `MCTS.run` on a well-formed expanded tree succeeds,
increments the root's visit count by exactly 1 (one backpropagation event),
and preserves well-formedness and expandedness of the root. -/
theorem simulate_spec (cfg : Config) (ops : MathOps) (model : Model Obs H)
    (hnd : cfg.action_space.Nodup) (root : Node H) (mm : MinMaxStats)
    (hok : TreeOK cfg.action_space root) (hne : root.children ≠ []) :
    ∃ st' : Node H × MinMaxStats,
      simulate cfg ops model (root, mm) = some st' ∧
      st'.1.visit_count = root.visit_count + 1 ∧
      TreeOK cfg.action_space st'.1 ∧ st'.1.children ≠ [] := by
  obtain ⟨parent, leaf, sp, hdne, hpar, hparne, hparok, hleaf, hleafc, hsp⟩ :=
    descend_spec cfg ops mm cfg.action_space hnd (sizeOf root) root le_rfl hok hne
  obtain ⟨la, hla⟩ := Option.isSome_iff_exists.mp (List.getLast?_isSome.mpr hdne)
  obtain ⟨hs, hhs⟩ := Option.isSome_iff_exists.mp (tree_ok_expanded hparok hparne).2
  obtain ⟨p0, prest, hpcons⟩ := List.exists_cons_of_ne_nil hdne
  have hok1 : TreeOK cfg.action_space
      (updateAt root (descend cfg ops mm root) fun lf =>
        lf.expand ops cfg.action_space (model.recurrent_inference hs la).2.1
          (model.recurrent_inference hs la).2.2.1
          (model.recurrent_inference hs la).2.2.2) :=
    tree_ok_updateAt_expand ops cfg.action_space hnd _ _ _
      (descend cfg ops mm root) root leaf hok hleaf hleafc
  have hsp1some : (pathNodes
      (updateAt root (descend cfg ops mm root) fun lf =>
        lf.expand ops cfg.action_space (model.recurrent_inference hs la).2.1
          (model.recurrent_inference hs la).2.2.1
          (model.recurrent_inference hs la).2.2.2)
      (descend cfg ops mm root)).isSome := by
    apply pathNodes_updateAt
    rw [hsp]
    rfl
  obtain ⟨sp1, hsp1e⟩ := Option.isSome_iff_exists.mp hsp1some
  obtain ⟨tl, htl⟩ := pathNodes_head hsp1e
  have heval : simulate cfg ops model (root, mm)
      = some
        (writeBack
          (updateAt root (descend cfg ops mm root) fun lf =>
            lf.expand ops cfg.action_space (model.recurrent_inference hs la).2.1
              (model.recurrent_inference hs la).2.2.1
              (model.recurrent_inference hs la).2.2.2)
          (descend cfg ops mm root)
          (backpropagate cfg sp1 (model.recurrent_inference hs la).1 mm).1,
         (backpropagate cfg sp1 (model.recurrent_inference hs la).1 mm).2) := by
    simp only [simulate]
    rw [hla]
    simp only [Option.some_bind]
    rw [hpar]
    simp only [Option.some_bind]
    rw [hhs]
    simp only [Option.some_bind]
    rw [hsp1e]
    simp only [Option.map_some']
  refine ⟨_, heval, ?_, ?_, ?_⟩
  · show (writeBack _ _ _).visit_count = root.visit_count + 1
    rw [htl, backpropagate_cons_fst, hpcons, writeBack_cons_def]
    simp only [Node.visit_count_mk]
    rw [updateAt_cons_def]
    simp only [Node.visit_count_mk]
  · exact tree_ok_writeBack _ _ _ hok1
  · show (writeBack _ _ _).children ≠ []
    rw [htl, backpropagate_cons_fst, hpcons, writeBack_cons_def, Node.children_mk,
      updateAt_cons_def, Node.children_mk]
    intro h0
    rw [List.map_eq_nil_iff, List.map_eq_nil_iff] at h0
    exact hne h0

/-- The simulation loop: `N` iterations produce exactly `N`
backpropagation events (the root is on every search path and is bumped
once per event), all succeeding on a well-formed expanded tree. -/
theorem runSims_spec (cfg : Config) (ops : MathOps) (model : Model Obs H)
    (hnd : cfg.action_space.Nodup) :
    ∀ (N : ℕ) (root : Node H) (mm : MinMaxStats),
      TreeOK cfg.action_space root → root.children ≠ [] →
      ∃ st' : Node H × MinMaxStats,
        runSims cfg ops model N (root, mm) = some st' ∧
        st'.1.visit_count = root.visit_count + N ∧
        TreeOK cfg.action_space st'.1 ∧ st'.1.children ≠ [] := by
  intro N
  induction N with
  | zero =>
    intro root mm hok hne
    exact ⟨(root, mm), rfl, rfl, hok, hne⟩
  | succ k ih =>
    intro root mm hok hne
    obtain ⟨st1, hsim, hv1, hok1, hne1⟩ := simulate_spec cfg ops model hnd root mm hok hne
    obtain ⟨st2, hrun2, hv2, hok2, hne2⟩ := ih st1.1 st1.2 hok1 hne1
    refine ⟨st2, ?_, ?_, hok2, hne2⟩
    · show (simulate cfg ops model (root, mm)).bind (runSims cfg ops model k) = some st2
      rw [hsim]
      simp only [Option.some_bind]
      exact hrun2
    · rw [hv2, hv1]
      omega

/-- `MCTS.run` on a duplicate-free non-empty action space: the root is
created with `visit_count = 0`, expanded once with the full action space,
and every simulation expands with the full action space and backpropagates
through the root, so the returned root has `visit_count = num_simulations`
and the whole tree satisfies `TreeOK`. -/
theorem run_spec (cfg : Config) (ops : MathOps) (model : Model Obs H)
    (noise : List ℚ) (observation : Obs) (flag : Bool)
    (hnd : cfg.action_space.Nodup) (hne : cfg.action_space ≠ []) :
    ∃ root', MCTS.run cfg ops model noise observation flag = some root' ∧
      root'.visit_count = cfg.num_simulations ∧ TreeOK cfg.action_space root' := by
  have hok0 : TreeOK cfg.action_space
      ((Node.new 0 : Node H).expand ops cfg.action_space
        (model.initial_inference observation).2.1
        (model.initial_inference observation).2.2.1
        (model.initial_inference observation).2.2.2) :=
    tree_ok_updateAt_expand ops cfg.action_space hnd
      (model.initial_inference observation).2.1
      (model.initial_inference observation).2.2.1
      (model.initial_inference observation).2.2.2
      [] (Node.new 0) (Node.new 0) (TreeOK.leaf _ rfl) rfl rfl
  have hne0 : ((Node.new 0 : Node H).expand ops cfg.action_space
      (model.initial_inference observation).2.1
      (model.initial_inference observation).2.2.1
      (model.initial_inference observation).2.2.2).children ≠ [] := by
    have hkeys : ((Node.new 0 : Node H).expand ops cfg.action_space
        (model.initial_inference observation).2.1
        (model.initial_inference observation).2.2.1
        (model.initial_inference observation).2.2.2).children.map Prod.fst
        = cfg.action_space := by
      rw [show ((Node.new 0 : Node H).expand ops cfg.action_space
          (model.initial_inference observation).2.1
          (model.initial_inference observation).2.2.1
          (model.initial_inference observation).2.2.2).children
        = expandChildren ops cfg.action_space
            (model.initial_inference observation).2.2.1 from rfl]
      exact expandChildren_keys ops cfg.action_space _
    intro h0
    rw [h0] at hkeys
    exact hne hkeys.symm
  cases flag with
  | false =>
    obtain ⟨st', hrs, hv, hok', _⟩ := runSims_spec cfg ops model hnd
      cfg.num_simulations _ MinMaxStats.new hok0 hne0
    refine ⟨st'.1, ?_, ?_, hok'⟩
    · show MCTS.run cfg ops model noise observation false = some st'.1
      simp only [MCTS.run, Bool.false_eq_true, if_false]
      rw [hrs]
      rfl
    · rw [hv]
      have h0 : ((Node.new 0 : Node H).expand ops cfg.action_space
          (model.initial_inference observation).2.1
          (model.initial_inference observation).2.2.1
          (model.initial_inference observation).2.2.2).visit_count = 0 := rfl
      rw [h0]
      omega
  | true =>
    have hokN : TreeOK cfg.action_space
        (((Node.new 0 : Node H).expand ops cfg.action_space
          (model.initial_inference observation).2.1
          (model.initial_inference observation).2.2.1
          (model.initial_inference observation).2.2.2).add_exploration_noise
            noise cfg.root_exploration_fraction) :=
      tree_ok_noise hok0 noise cfg.root_exploration_fraction
    have hneN : (((Node.new 0 : Node H).expand ops cfg.action_space
        (model.initial_inference observation).2.1
        (model.initial_inference observation).2.2.1
        (model.initial_inference observation).2.2.2).add_exploration_noise
          noise cfg.root_exploration_fraction).children ≠ [] := by
      intro h0
      apply hne0
      have hk := (add_exploration_noise_keys
        ((Node.new 0 : Node H).expand ops cfg.action_space
          (model.initial_inference observation).2.1
          (model.initial_inference observation).2.2.1
          (model.initial_inference observation).2.2.2) noise
        cfg.root_exploration_fraction).1
      rw [h0] at hk
      rcases hk0 : ((Node.new 0 : Node H).expand ops cfg.action_space
          (model.initial_inference observation).2.1
          (model.initial_inference observation).2.2.1
          (model.initial_inference observation).2.2.2).children with _ | ⟨q, qs⟩
      · rfl
      · rw [hk0] at hk
        simp at hk
    obtain ⟨st', hrs, hv, hok', _⟩ := runSims_spec cfg ops model hnd
      cfg.num_simulations _ MinMaxStats.new hokN hneN
    refine ⟨st'.1, ?_, ?_, hok'⟩
    · show MCTS.run cfg ops model noise observation true = some st'.1
      simp only [MCTS.run, if_true]
      rw [hrs]
      rfl
    · rw [hv]
      rw [(add_exploration_noise_keys _ _ _).2.1]
      have h0 : ((Node.new 0 : Node H).expand ops cfg.action_space
          (model.initial_inference observation).2.1
          (model.initial_inference observation).2.2.1
          (model.initial_inference observation).2.2.2).visit_count = 0 := rfl
      rw [h0]
      omega

/-- C3: running `MCTS.run` with `num_simulations = N` produces exactly `N`
backpropagation events, and the root's visit count goes from 0 at creation
to exactly `N` when `run` returns (the root lies on every search path and
each backpropagation event increments it exactly once), for every `N ≥ 0`.
The action space must be non-empty (otherwise the source crashes on
`search_path[-2]`) and duplicate-free, as the configured
`list(range(n))` action spaces are. -/
theorem c3_run_visit_count (cfg : Config) (ops : MathOps) (model : Model Obs H)
    (noise : List ℚ) (observation : Obs) (flag : Bool) (N : ℕ)
    (hN : cfg.num_simulations = N)
    (hnd : cfg.action_space.Nodup) (hne : cfg.action_space ≠ []) :
    ∃ root', MCTS.run cfg ops model noise observation flag = some root' ∧
      root'.visit_count = N := by
  obtain ⟨root', h1, h2, _⟩ := run_spec cfg ops model noise observation flag hnd hne
  exact ⟨root', h1, by rw [h2, hN]⟩

theorem c3_run_visit_count_witness :
    ∃ root', MCTS.run c2cfg c2ops c2model [] () false = some root' ∧
      root'.visit_count = 1 :=
  c3_run_visit_count c2cfg c2ops c2model [] () false 1 rfl
    (by decide) (by decide)

/-- C9: every expansion inside `MCTS.run` — the root expansion and every
leaf expansion — passes the full configured `action_space` to
`Node.expand`, so every expanded node of the returned tree has exactly one
child per action of the full action space (`TreeOK`); a restriction to a
legal-action subset never occurs on this code path. -/
theorem c9_full_action_space (cfg : Config) (ops : MathOps) (model : Model Obs H)
    (noise : List ℚ) (observation : Obs) (flag : Bool)
    (hnd : cfg.action_space.Nodup) (hne : cfg.action_space ≠ []) :
    ∃ root', MCTS.run cfg ops model noise observation flag = some root' ∧
      TreeOK cfg.action_space root' := by
  obtain ⟨root', h1, _, h3⟩ := run_spec cfg ops model noise observation flag hnd hne
  exact ⟨root', h1, h3⟩

theorem c9_full_action_space_witness :
    ∃ root', MCTS.run c2cfg c2ops c2model [] () true = some root' ∧
      TreeOK c2cfg.action_space root' :=
  c9_full_action_space c2cfg c2ops c2model [] () true (by decide) (by decide)

end MuZero
